import Mathlib

/-!
Verification of the node-frame HTTP router.

This file gives a shallow embedding of the route-registration and dispatch
logic of the repository:

* `src/node-frame.ts` — class `App`: `use`, the per-method registration
  helpers (`get`, `post`, ...), and `registerMultipleHandlers`.
* `src/test.md` (lines 42-102) — class `RequestHandler`: `handle` and
  `findPathHandlers`, the dispatcher.
* `src/types.ts` — `extendRequest` (`params`, `addRouteParams`) and
  `extendResponse` (`json`), plus the `Methods`/`RoutesMapper` types.

The pattern matcher in `findPathHandlers` turns a pattern string into a
JavaScript regular expression: every occurrence of `:` followed by a maximal
nonempty run of non-`/` characters becomes a capture group `([^/]+)` (greedy,
one or more non-`/` characters), and the result is anchored with `^...$` and
matched against the whole request path.  The embedding models this as a token
list (`Tok`) and a backtracking matcher (`matchFuel`) that tries capture
lengths greedily from longest to shortest, exactly as the regex engine does.
Characters of the pattern other than the `:name` runs reach the regex source
verbatim; the embedding models them as literal characters, except for `.`,
which a regex interprets as "any character other than a line terminator" and
which is modelled by the token `Tok.any`.  The model is therefore exact for
patterns whose characters carry no other regex meaning; the remaining regex
metacharacters (`* + ? ( ) [ ] | ^ $ \` and braces) are outside the modelled
domain, and theorems that quantify over patterns carry a `plainPattern`
hypothesis restricting to it.
-/

namespace NodeFrame

/-- A compiled pattern element: a literal character, the regex wildcard `.`
(any character other than a line terminator), or a named capture group
`([^/]+)` produced from a `:name` run in the pattern. -/
inductive Tok where
  | lit (c : Char)
  | any
  | param (name : String)
deriving DecidableEq, Repr

/-- What the regex wildcard `.` accepts (no `s` flag): any character that is
not a line terminator (`\n`, `\r`, U+2028, U+2029). -/
def dotMatch (c : Char) : Bool :=
  !(c == '\n' || c == '\r' || c.toNat == 8232 || c.toNat == 8233)

/-- Greedy backtracking loop for one capture group `([^/]+)`: try the capture
length `k`, `k-1`, ..., `1` (longest first), continuing with `rest` on the
remaining characters; the first length whose continuation succeeds wins.
This is the regex engine's behaviour for a greedy group. -/
def tryLens (rest : List Char → Option (List (String × String))) (n : String)
    (cs : List Char) : Nat → Option (List (String × String))
  | 0 => none
  | k + 1 =>
    match rest (cs.drop (k + 1)) with
    | some ps => some ((n, String.mk (cs.take (k + 1))) :: ps)
    | none => tryLens rest n cs k

/-- Anchored match of a token list against the characters of a request path,
returning the captured `(name, value)` pairs in group order (the order the
`:name` runs appear in the pattern), as `url.match(regex)` does.  The `Nat`
fuel decreases by one token per step; `matchToks` supplies `ts.length + 1`,
which is always sufficient. -/
def matchFuel : Nat → List Tok → List Char → Option (List (String × String))
  | 0, _, _ => none
  | _ + 1, [], [] => some []
  | _ + 1, [], _ :: _ => none
  | _ + 1, Tok.lit _ :: _, [] => none
  | f + 1, Tok.lit c :: ts, x :: xs => if x = c then matchFuel f ts xs else none
  | _ + 1, Tok.any :: _, [] => none
  | f + 1, Tok.any :: ts, x :: xs => if dotMatch x then matchFuel f ts xs else none
  | f + 1, Tok.param n :: ts, cs =>
    tryLens (matchFuel f ts) n cs ((cs.takeWhile (fun c => c != '/')).length)

/-- Anchored full-string match of a compiled pattern against a path
(model of `url.match(new RegExp('^' + regexPath + '$'))`). -/
def matchToks (ts : List Tok) (cs : List Char) : Option (List (String × String)) :=
  matchFuel (ts.length + 1) ts cs

/-- Compilation of a pattern's characters
(model of `path.replace(/:([^\x2f]+)/g, ...)` followed by regex
interpretation of the remaining characters, see `src/test.md` lines 82-88):
a `:` followed by a maximal nonempty run of non-`/` characters becomes a
named capture group; a lone `:` stays literal; `.` is the regex wildcard;
every other character is literal.  The `Nat` fuel decreases by one per
emitted token; `compileL` supplies `cs.length + 1`, which is always
sufficient because every token consumes at least one character. -/
def compileFuel : Nat → List Char → List Tok
  | 0, _ => []
  | _ + 1, [] => []
  | f + 1, c :: rest =>
    if c = ':' then
      if (rest.takeWhile (fun c => c != '/')).isEmpty then Tok.lit ':' :: compileFuel f rest
      else
        Tok.param (String.mk (rest.takeWhile (fun c => c != '/'))) ::
          compileFuel f (rest.drop (rest.takeWhile (fun c => c != '/')).length)
    else if c = '.' then Tok.any :: compileFuel f rest
    else Tok.lit c :: compileFuel f rest

/-- Compile a pattern's character list. -/
def compileL (cs : List Char) : List Tok :=
  compileFuel (cs.length + 1) cs

/-- Compile a pattern string (the keys of the route table). -/
def compile (p : String) : List Tok :=
  compileL p.data

/-- The declared parameter names of a compiled pattern, in order of
appearance (the `paramNames` array of `findPathHandlers`). -/
def paramNames : List Tok → List String
  | [] => []
  | Tok.param n :: ts => n :: paramNames ts
  | _ :: ts => paramNames ts

/-- Characters that reach the regex source verbatim and have no regex
meaning there (everything except `* + ? ( ) [ ] | ^ $ \` and braces; `.` is
modelled separately by `Tok.any`). -/
def plainChar (c : Char) : Bool :=
  !(c == '*' || c == '+' || c == '?' || c == '(' || c == ')' ||
    c == '[' || c == ']' || c == '|' || c == '^' || c == '$' ||
    c == '\\' || c == '\x7b' || c == '\x7d')

/-- Patterns inside the modelled domain: every character is plain. -/
def plainPattern (p : String) : Bool :=
  p.data.all plainChar

/-- Every capture group of the token list is followed by a literal `/` or is
the last token.  `compileL` always produces such lists, because a `:name` run
extends to the next `/` or to the end of the pattern. -/
def paramOk : List Tok → Bool
  | [] => true
  | [Tok.param _] => true
  | Tok.param _ :: Tok.lit c :: ts => c == '/' && paramOk (Tok.lit c :: ts)
  | Tok.param _ :: _ :: _ => false
  | _ :: ts => paramOk ts

/-- Token lists with no `Tok.any` (compiled from dot-free patterns). -/
def anyFree : List Tok → Bool
  | [] => true
  | Tok.any :: _ => false
  | _ :: ts => anyFree ts

/-- Reassembly of a path from a token list and a list of capture values, one
value per capture group in order: the unique path (if any) that the pattern
denotes once each group's value is fixed.  Returns `none` on arity mismatch
or on a wildcard token (whose matched character is not determined). -/
def expandToks : List Tok → List String → Option (List Char)
  | [], [] => some []
  | [], _ :: _ => none
  | Tok.lit c :: ts, vs => (expandToks ts vs).map (fun r => c :: r)
  | Tok.any :: _, _ => none
  | Tok.param _ :: _, [] => none
  | Tok.param _ :: ts, v :: vs => (expandToks ts vs).map (fun r => v.data ++ r)

/-- Number of literal `/` tokens (used to show trailing slashes are
significant: a matching path has exactly this many slashes). -/
def slashCount : List Tok → Nat
  | [] => 0
  | Tok.lit c :: ts => (if c = '/' then 1 else 0) + slashCount ts
  | _ :: ts => slashCount ts

/-! ## Insertion-ordered string-keyed records

`Record<string, ...>` objects and `Map<string, string>` are modelled as
association lists in insertion order: assigning to an existing key updates
its value in place (keeping its position), assigning to a fresh key appends
it; this is the enumeration-order contract of JavaScript objects for
non-array-index string keys (all route paths start with `/`, so all route
keys are of that kind) and of `Map`. -/

/-- Lookup (`obj[k]`, `map.get(k)`): value of the first — and, by the
`recSet` discipline, only — entry with the key. -/
def recGet {α : Type} (m : List (String × α)) (k : String) : Option α :=
  (m.find? (fun e => e.1 = k)).map Prod.snd

/-- Assignment (`obj[k] = v`, `map.set(k, v)`). -/
def recSet {α : Type} (m : List (String × α)) (k : String) (v : α) : List (String × α) :=
  if m.any (fun e => e.1 = k) then m.map (fun e => if e.1 = k then (k, v) else e)
  else m ++ [(k, v)]

/-- Sequential `map.set` of a list of pairs, left to right (models both the
`paramNames.forEach` loop building the params `Map` and the
`params.forEach` copy inside `addRouteParams`). -/
def mapSetAll (m : List (String × String)) (ps : List (String × String)) :
    List (String × String) :=
  ps.foldl (fun acc q => recSet acc q.1 q.2) m

/-! ## Route table and registration (`src/node-frame.ts`) -/

/-- The seven method keys of the `routes` object literal in the `App`
constructor (the `Methods` union type of `src/types.ts`). -/
inductive Method where
  | GET | POST | PATCH | DELETE | PUT | HEAD | OPTIONS
deriving DecidableEq, Repr

/-- The `RoutesMapper`: one pattern table per method key, each a
`Record<string, Array<HandlerFn>>`.  `H` is the handler type; registration
claims use labels (`Nat`), execution claims use semantic handlers. -/
structure RoutesMapper (H : Type) where
  GET : List (String × List H)
  POST : List (String × List H)
  PATCH : List (String × List H)
  DELETE : List (String × List H)
  PUT : List (String × List H)
  HEAD : List (String × List H)
  OPTIONS : List (String × List H)
deriving DecidableEq

/-- The `routes` object built by the `App` constructor: all seven tables
empty. -/
def initRoutes {H : Type} : RoutesMapper H :=
  ⟨[], [], [], [], [], [], []⟩

/-- Read `this.routes[method]`. -/
def getTable {H : Type} (r : RoutesMapper H) : Method → List (String × List H)
  | .GET => r.GET
  | .POST => r.POST
  | .PATCH => r.PATCH
  | .DELETE => r.DELETE
  | .PUT => r.PUT
  | .HEAD => r.HEAD
  | .OPTIONS => r.OPTIONS

/-- Write `this.routes[method]`. -/
def setTable {H : Type} (r : RoutesMapper H) (m : Method) (v : List (String × List H)) :
    RoutesMapper H :=
  match m with
  | .GET => { r with GET := v }
  | .POST => { r with POST := v }
  | .PATCH => { r with PATCH := v }
  | .DELETE => { r with DELETE := v }
  | .PUT => { r with PUT := v }
  | .HEAD => { r with HEAD := v }
  | .OPTIONS => { r with OPTIONS := v }

/-- `Object.prototype.hasOwnProperty.call(this.routes, method)`: the request
method string (possibly `undefined`) is an own key of `routes` exactly for
the seven method names. -/
def methodOfString : Option String → Option Method
  | some "GET" => some .GET
  | some "POST" => some .POST
  | some "PATCH" => some .PATCH
  | some "DELETE" => some .DELETE
  | some "PUT" => some .PUT
  | some "HEAD" => some .HEAD
  | some "OPTIONS" => some .OPTIONS
  | _ => none

/-- `App.registerMultipleHandlers(method, path, handlers)`
(`src/node-frame.ts` lines 48-57): if the chain at `path` is missing or
empty it is replaced by `[]` (an assignment that keeps an existing key's
position), then `handlers` are pushed onto it — so repeated registration
under the same `(method, path)` appends to the existing chain. -/
def registerMultipleHandlers {H : Type} (r : RoutesMapper H) (m : Method) (p : String)
    (hs : List H) : RoutesMapper H :=
  setTable r m (recSet (getTable r m) p (((recGet (getTable r m) p).getD []) ++ hs))

/-- Mutable `App` state: the global `middlewares` array and the route
table. -/
structure AppState (H : Type) where
  middlewares : List H
  routes : RoutesMapper H
deriving DecidableEq

/-- A fresh `new App()`. -/
def initApp (H : Type) : AppState H :=
  ⟨[], initRoutes⟩

/-- `App.use(...middlewares)`: append to the global middleware list. -/
def appUse {H : Type} (st : AppState H) (ms : List H) : AppState H :=
  { st with middlewares := st.middlewares ++ ms }

/-- The per-method registration helpers `App.get/post/patch/put/delete/options`
(and the `HEAD` table they never populate), modelled uniformly: each calls
`registerMultipleHandlers(METHOD, path, [...this.middlewares, ...handlers])`,
snapshotting the current global middleware list in front of the route's own
handlers. -/
def appReg {H : Type} (st : AppState H) (m : Method) (p : String) (hs : List H) :
    AppState H :=
  { st with routes := registerMultipleHandlers st.routes m p (st.middlewares ++ hs) }

/-- One call against the registration API, for stating claims about
registration histories. -/
inductive RegEvent (H : Type) where
  | use (ms : List H)
  | reg (m : Method) (p : String) (hs : List H)
deriving DecidableEq

/-- Apply one registration call. -/
def applyEvent {H : Type} (st : AppState H) : RegEvent H → AppState H
  | .use ms => appUse st ms
  | .reg m p hs => appReg st m p hs

/-- Replay a registration history against a fresh `App`. -/
def applyHistory {H : Type} (evs : List (RegEvent H)) : AppState H :=
  evs.foldl applyEvent (initApp H)

/-- The global middleware registered by a history, in registration order. -/
def usesOf {H : Type} : List (RegEvent H) → List H
  | [] => []
  | .use ms :: evs => ms ++ usesOf evs
  | .reg _ _ _ :: evs => usesOf evs

/-- Whether an event is a route registration for exactly `(m, r)`. -/
def regsRoute {H : Type} (m : Method) (r : String) : RegEvent H → Bool
  | .reg m' r' _ => decide (m' = m) && decide (r' = r)
  | _ => false

/-! ## Request, response and dispatch (`src/test.md` lines 42-102,
`src/types.ts`) -/

/-- The request view a handler receives: `method` and `url` as Node delivers
them (possibly `undefined`), the headers, and the `params` map installed by
`extendRequest` (fresh and empty for every request). -/
structure Req where
  method : Option String
  url : Option String
  headers : List (String × String)
  params : List (String × String)
deriving DecidableEq

/-- A freshly extended incoming request: `extendRequest` initialises
`params` to an empty `Map`. -/
def freshReq (method url : Option String) (headers : List (String × String)) : Req :=
  ⟨method, url, headers, []⟩

/-- `req.addRouteParams(params)` (`src/types.ts` lines 30-34): copy the given
map entry by entry, in its insertion order, into `this.params` via
`Map.set`. -/
def addRouteParams (req : Req) (ps : List (String × String)) : Req :=
  { req with params := mapSetAll req.params (mapSetAll [] ps) }

/-- The response state a handler can observe and mutate: status code
(Node's default is 200), headers, and the body/finished flag set by
`res.end`.  Writing after the response has ended is modelled as a no-op;
no claim exercises that corner, which the spec flags as undefined. -/
structure Res where
  statusCode : Nat
  headers : List (String × String)
  body : String
  ended : Bool
deriving DecidableEq

/-- A fresh server response. -/
def initRes : Res :=
  ⟨200, [], "", false⟩

/-- `res.end(body)`. -/
def resEnd (r : Res) (b : String) : Res :=
  if r.ended then r else { r with body := b, ended := true }

/-- `res.setHeader(name, value)`. -/
def setHeader (r : Res) (k v : String) : Res :=
  { r with headers := recSet r.headers k v }

/-- A handler: receives the request and the current response state and
either completes normally with the new response state or throws
synchronously; the thrown branch carries the response state at the moment
of the throw. -/
def Handler : Type :=
  Req → Res → Except Res Res

/-- `handlers.forEach((handler) => handler(this.req, this.res))`
(`src/test.md` line 72): run the chain in order; a synchronous throw aborts
the iteration and propagates — there is no try/catch around it (the FIXME
comment at lines 68-71 records exactly this). -/
def runChain (hs : List Handler) (req : Req) (res : Res) : Except Res Res :=
  match hs with
  | [] => .ok res
  | h :: t =>
    match h req res with
    | .ok res' => runChain t req res'
    | .error e => .error e

/-- Try the method's patterns in the table's insertion order — which is
registration order — and return the first structural match together with
its captures (`src/test.md` lines 79-98). -/
def lookupRoute {H : Type} : List (String × List H) → String →
    Option (List (String × String) × List H)
  | [], _ => none
  | (p, chain) :: rest, url =>
    match matchToks (compile p) url.data with
    | some ps => some (ps, chain)
    | none => lookupRoute rest url

/-- `RequestHandler.findPathHandlers(method, url)` (`src/test.md` lines
75-101): empty result when the method is not an own key of `routes`;
otherwise the first matching pattern's chain, with the extracted parameters
attached to the request via `addRouteParams`. -/
def findPathHandlers {H : Type} (routes : RoutesMapper H) (req : Req) (url : String) :
    List H × Req :=
  match methodOfString req.method with
  | none => ([], req)
  | some m =>
    match lookupRoute (getTable routes m) url with
    | none => ([], req)
    | some (ps, chain) => (chain, addRouteParams req ps)

/-- `url || '/'`: Node's `url` can be `undefined`, and the empty string is
falsy. -/
def urlOr : Option String → String
  | none => "/"
  | some s => if s = "" then "/" else s

/-- `RequestHandler.handle()` (`src/test.md` lines 55-73): look up the
handlers for `(method, url || '/')`; if none, answer 404 `"Not Found"`;
otherwise run the chain with `forEach`, with no error handling. -/
def handle (routes : RoutesMapper Handler) (req : Req) (res : Res) : Except Res Res :=
  if (findPathHandlers routes req (urlOr req.url)).1.length = 0 then
    .ok (resEnd { res with statusCode := 404 } "Not Found")
  else
    runChain (findPathHandlers routes req (urlOr req.url)).1
      (findPathHandlers routes req (urlOr req.url)).2 res

/-! ## The JSON helper (`src/types.ts` lines 38-51)

`extendResponse.json` calls the platform builtin `JSON.stringify`; the value
universe and the builtin are modelled below.  Numbers are modelled as
integers (floating point is out of scope) and the only modelled throwing
case is a BigInt anywhere in the value — the builtin's synchronous
`TypeError`; cyclic values cannot be represented in an inductive type. -/

/-- A JavaScript value passed to `res.json`. -/
inductive JVal where
  | null
  | jbool (b : Bool)
  | jnum (n : Int)
  | jstr (s : String)
  | jarr (elems : List JVal)
  | jobj (fields : List (String × JVal))
  | jundef
  | jfunc
  | jbigint (n : Int)

/-- Hexadecimal digit. -/
def hexDigit (n : Nat) : Char :=
  if n < 10 then Char.ofNat (48 + n) else Char.ofNat (87 + n)

/-- JSON string escaping as `JSON.stringify` performs it. -/
def escJChar (c : Char) : String :=
  if c = '"' then "\\\""
  else if c = '\\' then "\\\\"
  else if c = '\n' then "\\n"
  else if c = '\r' then "\\r"
  else if c = '\t' then "\\t"
  else if c = '\x08' then "\\b"
  else if c = '\x0c' then "\\f"
  else if c.toNat < 32 then
    "\\u00" ++ String.mk [hexDigit (c.toNat / 16), hexDigit (c.toNat % 16)]
  else String.singleton c

/-- A JSON string literal. -/
def jquote (s : String) : String :=
  "\"" ++ String.join (s.data.map escJChar) ++ "\""

mutual

/-- Model of `JSON.stringify`: `Except.error ()` is a synchronous
`TypeError` (a BigInt in the value); `Except.ok none` is the JavaScript
result `undefined` (top-level `undefined` or function). -/
def stringify : JVal → Except Unit (Option String)
  | .null => .ok (some "null")
  | .jbool b => .ok (some (if b then "true" else "false"))
  | .jnum n => .ok (some (toString n))
  | .jstr s => .ok (some (jquote s))
  | .jundef => .ok none
  | .jfunc => .ok none
  | .jbigint _ => .error ()
  | .jarr l => do
    let parts ← stringifyArr l
    .ok (some ("[" ++ String.intercalate "," parts ++ "]"))
  | .jobj l => do
    let parts ← stringifyFields l
    .ok (some ("\x7b" ++ String.intercalate "," parts ++ "\x7d"))

/-- Array elements: `undefined` and functions serialize as `null`. -/
def stringifyArr : List JVal → Except Unit (List String)
  | [] => .ok []
  | v :: t => do
    let s ← stringify v
    let rest ← stringifyArr t
    .ok ((s.getD "null") :: rest)

/-- Object fields: entries whose value serializes to `undefined` are
omitted. -/
def stringifyFields : List (String × JVal) → Except Unit (List String)
  | [] => .ok []
  | (k, v) :: t => do
    let s ← stringify v
    let rest ← stringifyFields t
    match s with
    | none => .ok rest
    | some sv => .ok ((jquote k ++ ":" ++ sv) :: rest)

end

/-- `res.json(data)` (`src/types.ts` lines 41-49): set the JSON content
type header, then `end` with the serialized value; if serialization throws,
the catch block sets status 500 and ends with the fixed body instead — the
exception never escapes `json` (the function is total). -/
def resJson (res : Res) (v : JVal) : Res :=
  match stringify v with
  | .ok s => resEnd (setHeader res "Content-Type" "application/json") (s.getD "")
  | .error _ =>
    resEnd { setHeader res "Content-Type" "application/json" with statusCode := 500 }
      "Internal Server Error"

/-! ## Concrete handlers used to exercise chain execution -/

/-- A handler that throws synchronously without touching the response. -/
def throwingHandler : Handler := fun _ res => .error res

/-- A handler whose having run is observable: it sets a marker header. -/
def probeHandler : Handler := fun _ res => .ok (setHeader res "X-Probe" "1")

/-- An app with the single route `GET /x -> [throwingHandler, probeHandler]`
and no global middleware. -/
def throwRoutes : RoutesMapper Handler :=
  (appReg (initApp Handler) Method.GET "/x" [throwingHandler, probeHandler]).routes

/-! # Lemmas

First a few facts about `takeWhile`/`dropWhile`, then step equations for the
matcher, the greedy-group step lemma, and the full characterization of
matching for compiled patterns. -/

theorem takeWhile_len_le (p : Char → Bool) (cs : List Char) :
    (cs.takeWhile p).length ≤ cs.length := by
  induction cs with
  | nil => simp
  | cons x xs ih =>
    rw [List.takeWhile_cons]
    by_cases h : p x = true <;> simp [h] <;> try omega

theorem take_takeWhile_len (p : Char → Bool) (cs : List Char) :
    cs.take (cs.takeWhile p).length = cs.takeWhile p := by
  induction cs with
  | nil => rfl
  | cons x xs ih =>
    rw [List.takeWhile_cons]
    by_cases h : p x = true <;> simp [h, ih]

theorem drop_takeWhile_len (p : Char → Bool) (cs : List Char) :
    cs.drop (cs.takeWhile p).length = cs.dropWhile p := by
  induction cs with
  | nil => rfl
  | cons x xs ih =>
    rw [List.takeWhile_cons, List.dropWhile_cons]
    by_cases h : p x = true <;> simp [h, ih]

theorem drop_head_within (p : Char → Bool) (cs : List Char) :
    ∀ k, k < (cs.takeWhile p).length → ∃ c r, cs.drop k = c :: r ∧ p c = true := by
  induction cs with
  | nil => intro k h; simp at h
  | cons x xs ih =>
    intro k h
    rw [List.takeWhile_cons] at h
    by_cases hx : p x = true
    · simp only [if_pos hx, List.length_cons] at h
      match k with
      | 0 => exact ⟨x, xs, rfl, hx⟩
      | k + 1 =>
        obtain ⟨c, r, hd, hc⟩ := ih k (by omega)
        exact ⟨c, r, by simpa using hd, hc⟩
    · simp [hx] at h

theorem dropWhile_head_false (p : Char → Bool) (cs : List Char) :
    cs.dropWhile p = [] ∨ ∃ c r, cs.dropWhile p = c :: r ∧ p c = false := by
  induction cs with
  | nil => exact Or.inl rfl
  | cons x xs ih =>
    rw [List.dropWhile_cons]
    by_cases h : p x = true
    · simpa [h] using ih
    · exact Or.inr ⟨x, xs, by simp [h], by simpa using h⟩

theorem takeWhile_append_sat (p : Char → Bool) (v r : List Char)
    (hv : ∀ c ∈ v, p c = true) :
    (v ++ r).takeWhile p = v ++ r.takeWhile p := by
  induction v with
  | nil => simp
  | cons x xs ih =>
    rw [List.cons_append, List.takeWhile_cons, if_pos (hv x (by simp))]
    rw [ih (fun c hc => hv c (by simp [hc]))]
    rfl

/-! ### Step equations for the matcher -/

theorem matchToks_nil_nil : matchToks [] [] = some [] := rfl

theorem matchToks_nil_cons (x : Char) (xs : List Char) :
    matchToks [] (x :: xs) = none := rfl

theorem matchToks_lit_nil (c : Char) (ts : List Tok) :
    matchToks (Tok.lit c :: ts) [] = none := rfl

theorem matchToks_lit_cons (c : Char) (ts : List Tok) (x : Char) (xs : List Char) :
    matchToks (Tok.lit c :: ts) (x :: xs) = if x = c then matchToks ts xs else none := rfl

theorem matchToks_any_nil (ts : List Tok) : matchToks (Tok.any :: ts) [] = none := rfl

theorem matchToks_any_cons (ts : List Tok) (x : Char) (xs : List Char) :
    matchToks (Tok.any :: ts) (x :: xs)
      = if dotMatch x then matchToks ts xs else none := rfl

theorem matchToks_param (n : String) (ts : List Tok) (cs : List Char) :
    matchToks (Tok.param n :: ts) cs
      = tryLens (matchToks ts) n cs ((cs.takeWhile (fun c => c != '/')).length) := rfl

/-- After a capture group, a compiled pattern continues with `/` or ends; on
a character other than `/` such a continuation fails immediately. -/
theorem matchToks_sep_fail (ts : List Tok)
    (hts : ts = [] ∨ ∃ ts', ts = Tok.lit '/' :: ts')
    (c : Char) (r : List Char) (hc : c ≠ '/') :
    matchToks ts (c :: r) = none := by
  rcases hts with h | ⟨ts', h⟩ <;> subst h
  · rfl
  · rw [matchToks_lit_cons]
    simp [hc]

/-- Capture lengths strictly below the maximal non-`/` run all fail, because
the continuation immediately meets a non-`/` character. -/
theorem tryLens_lt (n : String) (ts : List Tok) (cs : List Char)
    (hts : ts = [] ∨ ∃ ts', ts = Tok.lit '/' :: ts') :
    ∀ k, k < (cs.takeWhile (fun c => c != '/')).length →
      tryLens (matchToks ts) n cs k = none := by
  intro k
  induction k with
  | zero => intro _; rfl
  | succ k ih =>
    intro hk
    obtain ⟨c, r, hd, hc⟩ := drop_head_within (fun c => c != '/') cs (k + 1) hk
    have hfail : matchToks ts (cs.drop (k + 1)) = none := by
      rw [hd]
      exact matchToks_sep_fail ts hts c r (by simpa using hc)
    simp only [tryLens, hfail]
    exact ih (by omega)

/-- The greedy-group step: for a compiled pattern, the group captures exactly
the maximal nonempty run of non-`/` characters; no backtracking to a shorter
capture can succeed. -/
theorem matchToks_param_next (n : String) (ts : List Tok) (cs : List Char)
    (hts : ts = [] ∨ ∃ ts', ts = Tok.lit '/' :: ts') :
    matchToks (Tok.param n :: ts) cs =
      if (cs.takeWhile (fun c => c != '/')).length = 0 then none
      else
        (matchToks ts (cs.drop ((cs.takeWhile (fun c => c != '/')).length))).map
          (fun ps =>
            (n, String.mk (cs.take ((cs.takeWhile (fun c => c != '/')).length))) :: ps) := by
  rw [matchToks_param]
  cases hm : (cs.takeWhile (fun c => c != '/')).length with
  | zero => rfl
  | succ k =>
    rw [if_neg (by omega : ¬ (k + 1 = 0))]
    cases hrec : matchToks ts (cs.drop (k + 1)) with
    | some ps => simp [tryLens, hrec]
    | none =>
      simp only [tryLens, hrec, Option.map_none']
      exact tryLens_lt n ts cs hts k (by omega)

/-! ### Shape facts about `paramOk`, `anyFree`, `paramNames` -/

theorem paramOk_lit (c : Char) (ts : List Tok) :
    paramOk (Tok.lit c :: ts) = paramOk ts := by
  cases ts <;> rfl

theorem paramOk_any (ts : List Tok) : paramOk (Tok.any :: ts) = paramOk ts := by
  cases ts <;> rfl

theorem paramOk_param_inv (n : String) (ts : List Tok)
    (h : paramOk (Tok.param n :: ts) = true) :
    (ts = [] ∨ ∃ ts', ts = Tok.lit '/' :: ts') ∧ paramOk ts = true := by
  cases ts with
  | nil => exact ⟨Or.inl rfl, rfl⟩
  | cons t ts' =>
    cases t with
    | lit c =>
      have h' : (c == '/' && paramOk (Tok.lit c :: ts')) = true := h
      have hc : c = '/' := by
        have := (Bool.and_eq_true _ _).mp h'
        simpa using this.1
      have hok : paramOk (Tok.lit c :: ts') = true :=
        ((Bool.and_eq_true _ _).mp h').2
      subst hc
      exact ⟨Or.inr ⟨ts', rfl⟩, hok⟩
    | any => exact absurd h (by simp [paramOk])
    | param m => exact absurd h (by simp [paramOk])

theorem anyFree_lit (c : Char) (ts : List Tok) :
    anyFree (Tok.lit c :: ts) = anyFree ts := rfl

theorem anyFree_param (n : String) (ts : List Tok) :
    anyFree (Tok.param n :: ts) = anyFree ts := rfl

theorem paramNames_lit (c : Char) (ts : List Tok) :
    paramNames (Tok.lit c :: ts) = paramNames ts := rfl

theorem paramNames_param (n : String) (ts : List Tok) :
    paramNames (Tok.param n :: ts) = n :: paramNames ts := rfl

theorem data_mk (l : List Char) : (String.mk l).data = l := rfl

theorem mk_data (s : String) : String.mk s.data = s := by
  cases s
  rfl

/-! ### The characterization of matching -/

/-- For a wildcard-free token list whose capture groups are each followed by
`/` or final (which is the shape `compileL` always produces), the anchored
match succeeds with captures `ps` exactly when the whole path is the
pattern's reassembly from the capture values, the capture names are the
declared names in order, and each capture value is a nonempty run of
non-`/` characters.  In particular match results are unique and the greedy
regex semantics picks out exactly the slash-separated decomposition. -/
theorem matchToks_characterization (ts : List Tok) (hok : paramOk ts = true)
    (hany : anyFree ts = true) :
    ∀ (cs : List Char) (ps : List (String × String)),
      matchToks ts cs = some ps ↔
        (ps.map Prod.fst = paramNames ts ∧
         expandToks ts (ps.map Prod.snd) = some cs ∧
         ∀ pr ∈ ps, pr.2.data ≠ [] ∧ ∀ c ∈ pr.2.data, c ≠ '/') := by
  induction ts with
  | nil =>
    intro cs ps
    cases cs with
    | nil =>
      rw [matchToks_nil_nil]
      cases ps with
      | nil => simp [expandToks, paramNames]
      | cons pr ps' => simp [expandToks, paramNames]
    | cons x xs =>
      rw [matchToks_nil_cons]
      cases ps with
      | nil => simp [expandToks, paramNames]
      | cons pr ps' => simp [expandToks, paramNames]
  | cons t ts ih =>
    cases t with
    | any => exact absurd hany (by simp [anyFree])
    | lit c =>
      have hok' : paramOk ts = true := by rw [paramOk_lit] at hok; exact hok
      have hany' : anyFree ts = true := hany
      intro cs ps
      cases cs with
      | nil =>
        rw [matchToks_lit_nil]
        simp only [paramNames_lit]
        constructor
        · intro h; exact absurd h (by simp)
        · rintro ⟨-, hexp, -⟩
          exfalso
          simp only [expandToks, Option.map_eq_some'] at hexp
          obtain ⟨r, -, hr⟩ := hexp
          exact List.cons_ne_nil c r hr
      | cons x xs =>
        rw [matchToks_lit_cons]
        by_cases hx : x = c
        · subst hx
          rw [if_pos rfl, ih hok' hany' xs ps, paramNames_lit]
          constructor
          · rintro ⟨hn, hexp, hval⟩
            exact ⟨hn, by simp [expandToks, hexp], hval⟩
          · rintro ⟨hn, hexp, hval⟩
            refine ⟨hn, ?_, hval⟩
            simp only [expandToks, Option.map_eq_some'] at hexp
            obtain ⟨r, hr, hcons⟩ := hexp
            obtain ⟨-, hrx⟩ := List.cons.inj hcons
            rw [hr, hrx]
        · rw [if_neg hx]
          constructor
          · intro h; exact absurd h (by simp)
          · rintro ⟨-, hexp, -⟩
            exfalso
            simp only [expandToks, Option.map_eq_some'] at hexp
            obtain ⟨r, -, hcons⟩ := hexp
            exact hx (List.cons.inj hcons).1.symm
    | param n =>
      obtain ⟨hsh, hok'⟩ := paramOk_param_inv n ts hok
      have hany' : anyFree ts = true := hany
      intro cs ps
      rw [matchToks_param_next n ts cs hsh]
      by_cases hm : (cs.takeWhile (fun c => c != '/')).length = 0
      · rw [if_pos hm]
        constructor
        · intro h; exact absurd h (by simp)
        · rintro ⟨hn, hexp, hval⟩
          exfalso
          cases ps with
          | nil => simp [paramNames_param] at hn
          | cons pr ps' =>
            simp only [List.map_cons] at hexp
            simp only [expandToks, Option.map_eq_some'] at hexp
            obtain ⟨r, -, hr⟩ := hexp
            obtain ⟨hne, hslash⟩ := hval pr (by simp)
            have hsat : ∀ c ∈ pr.2.data, (fun c => c != '/') c = true := by
              intro c hc
              simpa using hslash c hc
            have : (cs.takeWhile (fun c => c != '/')) =
                pr.2.data ++ (r.takeWhile (fun c => c != '/')) := by
              rw [← hr]; exact takeWhile_append_sat _ _ _ hsat
            rw [this] at hm
            simp only [List.length_append] at hm
            exact hne (List.length_eq_zero.mp (by omega))
      · rw [if_neg hm]
        constructor
        · intro h
          simp only [Option.map_eq_some'] at h
          obtain ⟨ps', hps', hcons⟩ := h
          obtain ⟨hn', hexp', hval'⟩ := (ih hok' hany' _ ps').mp hps'
          subst hcons
          have htake : cs.take (cs.takeWhile (fun c => c != '/')).length
              = cs.takeWhile (fun c => c != '/') := take_takeWhile_len _ cs
          refine ⟨by simp [paramNames_param, hn'], ?_, ?_⟩
          · simp only [List.map_cons, expandToks, hexp', Option.map_some',
              Option.some.injEq, data_mk]
            exact List.take_append_drop _ cs
          · intro pr hpr
            rcases List.mem_cons.mp hpr with hpr | hpr
            · subst hpr
              refine ⟨?_, ?_⟩
              · show cs.take ((cs.takeWhile (fun c => c != '/')).length) ≠ []
                rw [htake]
                intro hnil
                rw [hnil] at hm
                exact hm rfl
              · intro c hc
                have hc' : c ∈ cs.take ((cs.takeWhile (fun c => c != '/')).length) := hc
                rw [htake] at hc'
                simpa using List.mem_takeWhile_imp hc'
            · exact hval' pr hpr
        · rintro ⟨hn, hexp, hval⟩
          cases ps with
          | nil => simp [paramNames_param] at hn
          | cons pr ps' =>
            simp only [List.map_cons, paramNames_param, List.cons.injEq] at hn
            obtain ⟨hn1, hn'⟩ := hn
            simp only [List.map_cons] at hexp
            simp only [expandToks, Option.map_eq_some'] at hexp
            obtain ⟨r, hr, hrcs⟩ := hexp
            obtain ⟨hne, hslash⟩ := hval pr (by simp)
            have hsat : ∀ c ∈ pr.2.data, (fun c => c != '/') c = true := by
              intro c hc
              simpa using hslash c hc
            have hrtw : r.takeWhile (fun c => c != '/') = [] := by
              rcases hsh with h | ⟨ts', h⟩
              · subst h
                have : ps'.map Prod.snd = [] := by
                  have : ps' = [] := by
                    cases ps' with
                    | nil => rfl
                    | cons a b => simp [paramNames] at hn'
                  simp [this]
                rw [this] at hr
                cases r with
                | nil => rfl
                | cons a b => exact absurd hr (by simp [expandToks])
              · subst h
                simp only [expandToks, Option.map_eq_some'] at hr
                obtain ⟨r', -, hr'⟩ := hr
                rw [← hr']
                rw [List.takeWhile_cons]
                simp
            have htw : cs.takeWhile (fun c => c != '/') = pr.2.data := by
              rw [← hrcs, takeWhile_append_sat _ _ _ hsat, hrtw, List.append_nil]
            have hm' : (cs.takeWhile (fun c => c != '/')).length = pr.2.data.length := by
              rw [htw]
            have hdrop : cs.drop (cs.takeWhile (fun c => c != '/')).length = r := by
              rw [hm', ← hrcs, List.drop_left]
            have htake : cs.take (cs.takeWhile (fun c => c != '/')).length = pr.2.data := by
              rw [hm', ← hrcs, List.take_left]
            have hmt : matchToks ts r = some ps' :=
              (ih hok' hany' r ps').mpr ⟨hn', hr, fun q hq => hval q (by simp [hq])⟩
            rw [hdrop, hmt, Option.map_some']
            congr 1
            rw [htake]
            have : pr = (n, pr.2) := by
              rw [← hn1]
            rw [this, mk_data]

/-! ### Facts about `compileL`: any fuel above the character count gives the
same tokens, the step equation, and the shape invariants `paramOk` and
(for dot-free patterns) `anyFree`. -/

theorem compileFuel_cons_eq (f : Nat) (c : Char) (rest : List Char) :
    compileFuel (f + 1) (c :: rest) =
      if c = ':' then
        if (rest.takeWhile (fun c => c != '/')).isEmpty then
          Tok.lit ':' :: compileFuel f rest
        else
          Tok.param (String.mk (rest.takeWhile (fun c => c != '/'))) ::
            compileFuel f (rest.drop (rest.takeWhile (fun c => c != '/')).length)
      else if c = '.' then Tok.any :: compileFuel f rest
      else Tok.lit c :: compileFuel f rest := rfl

theorem compileFuel_congr :
    ∀ (f g : Nat) (cs : List Char), cs.length < f → cs.length < g →
      compileFuel f cs = compileFuel g cs := by
  intro f
  induction f with
  | zero => intro g cs h _; exact absurd h (by omega)
  | succ f ih =>
    intro g cs h hg
    cases g with
    | zero => exact absurd hg (by omega)
    | succ g =>
      cases cs with
      | nil => rfl
      | cons c rest =>
        have h1 : rest.length < f := by
          simp only [List.length_cons] at h; omega
        have h2 : rest.length < g := by
          simp only [List.length_cons] at hg; omega
        have hd : (rest.drop (rest.takeWhile (fun c => c != '/')).length).length
            ≤ rest.length := by
          rw [List.length_drop]; omega
        rw [compileFuel_cons_eq, compileFuel_cons_eq]
        by_cases hc : c = ':'
        · rw [if_pos hc, if_pos hc]
          by_cases hnm : (rest.takeWhile (fun c => c != '/')).isEmpty
          · rw [if_pos hnm, if_pos hnm, ih g rest h1 h2]
          · rw [if_neg hnm, if_neg hnm, ih g _ (by omega) (by omega)]
        · rw [if_neg hc, if_neg hc]
          by_cases hdot : c = '.'
          · rw [if_pos hdot, if_pos hdot, ih g rest h1 h2]
          · rw [if_neg hdot, if_neg hdot, ih g rest h1 h2]

theorem compileL_nil : compileL [] = [] := rfl

theorem compileL_cons (c : Char) (rest : List Char) :
    compileL (c :: rest) =
      if c = ':' then
        if (rest.takeWhile (fun c => c != '/')).isEmpty then
          Tok.lit ':' :: compileL rest
        else
          Tok.param (String.mk (rest.takeWhile (fun c => c != '/'))) ::
            compileL (rest.drop (rest.takeWhile (fun c => c != '/')).length)
      else if c = '.' then Tok.any :: compileL rest
      else Tok.lit c :: compileL rest := by
  show compileFuel (rest.length + 1 + 1) (c :: rest) = _
  rw [compileFuel_cons_eq]
  by_cases hc : c = ':'
  · rw [if_pos hc, if_pos hc]
    by_cases hnm : (rest.takeWhile (fun c => c != '/')).isEmpty
    · rw [if_pos hnm, if_pos hnm]
      rfl
    · rw [if_neg hnm, if_neg hnm]
      have hd : (rest.drop (rest.takeWhile (fun c => c != '/')).length).length
          ≤ rest.length := by
        rw [List.length_drop]; omega
      show _ = Tok.param _ :: compileFuel _ _
      congr 1
      exact compileFuel_congr (rest.length + 1) _ _ (by omega) (by omega)
  · rw [if_neg hc, if_neg hc]
    by_cases hdot : c = '.'
    · rw [if_pos hdot, if_pos hdot]
      rfl
    · rw [if_neg hdot, if_neg hdot]
      rfl

theorem compileL_paramOk : ∀ (N : Nat) (cs : List Char), cs.length ≤ N →
    paramOk (compileL cs) = true := by
  intro N
  induction N with
  | zero =>
    intro cs h
    have : cs = [] := List.length_eq_zero.mp (by omega)
    subst this
    rfl
  | succ N ih =>
    intro cs h
    cases cs with
    | nil => rfl
    | cons c rest =>
      have h1 : rest.length ≤ N := by
        simp only [List.length_cons] at h; omega
      rw [compileL_cons]
      by_cases hc : c = ':'
      · rw [if_pos hc]
        by_cases hnm : (rest.takeWhile (fun c => c != '/')).isEmpty
        · rw [if_pos hnm, paramOk_lit]
          exact ih rest h1
        · rw [if_neg hnm]
          have hdlen : (rest.drop (rest.takeWhile (fun c => c != '/')).length).length
              ≤ rest.length := by
            rw [List.length_drop]; omega
          rw [drop_takeWhile_len] at hdlen ⊢
          rcases dropWhile_head_false (fun c => c != '/') rest with hnil | ⟨d, r, hd, hdp⟩
          · rw [hnil]
            rfl
          · have hds : d = '/' := by simpa using hdp
            subst hds
            rw [hd, compileL_cons, if_neg (by decide : ¬ ('/' : Char) = ':'),
              if_neg (by decide : ¬ ('/' : Char) = '.')]
            have heq : paramOk (Tok.param (String.mk (rest.takeWhile (fun c => c != '/'))) ::
                Tok.lit '/' :: compileL r)
                = (('/' == '/') && paramOk (Tok.lit '/' :: compileL r)) := rfl
            rw [heq, paramOk_lit]
            have hr : r.length ≤ N := by
              rw [hd] at hdlen
              simp only [List.length_cons] at hdlen
              omega
            simp [ih r hr]
      · rw [if_neg hc]
        by_cases hdot : c = '.'
        · rw [if_pos hdot, paramOk_any]
          exact ih rest h1
        · rw [if_neg hdot, paramOk_lit]
          exact ih rest h1

/-- Every compiled pattern has its capture groups followed by `/` or final:
a `:name` run extends to the next `/` or the end. -/
theorem compile_paramOk (p : String) : paramOk (compile p) = true :=
  compileL_paramOk p.data.length p.data le_rfl

theorem compileL_anyFree : ∀ (N : Nat) (cs : List Char), cs.length ≤ N →
    (∀ c ∈ cs, c ≠ '.') → anyFree (compileL cs) = true := by
  intro N
  induction N with
  | zero =>
    intro cs h _
    have : cs = [] := List.length_eq_zero.mp (by omega)
    subst this
    rfl
  | succ N ih =>
    intro cs h hdot
    cases cs with
    | nil => rfl
    | cons c rest =>
      have h1 : rest.length ≤ N := by
        simp only [List.length_cons] at h; omega
      have hdot1 : ∀ x ∈ rest, x ≠ '.' := fun x hx => hdot x (by simp [hx])
      rw [compileL_cons]
      by_cases hc : c = ':'
      · rw [if_pos hc]
        by_cases hnm : (rest.takeWhile (fun c => c != '/')).isEmpty
        · rw [if_pos hnm, anyFree_lit]
          exact ih rest h1 hdot1
        · rw [if_neg hnm, anyFree_param]
          have hdlen : (rest.drop (rest.takeWhile (fun c => c != '/')).length).length
              ≤ rest.length := by
            rw [List.length_drop]; omega
          exact ih _ (by omega) (fun x hx => hdot1 x (List.drop_subset _ _ hx))
      · rw [if_neg hc]
        by_cases hdc : c = '.'
        · exact absurd hdc (hdot c (by simp))
        · rw [if_neg hdc, anyFree_lit]
          exact ih rest h1 hdot1

/-- Compiled dot-free patterns contain no wildcard token. -/
theorem compile_anyFree (p : String) (h : ∀ c ∈ p.data, c ≠ '.') :
    anyFree (compile p) = true :=
  compileL_anyFree p.data.length p.data le_rfl h

/-- Reassembling a path whose capture values are slash-free yields exactly
`slashCount` slashes: the number of literal `/` tokens of the pattern.
Hence trailing slashes are significant — adding one changes the count. -/
theorem expand_count_slash : ∀ (ts : List Tok) (vs : List String) (cs : List Char),
    expandToks ts vs = some cs → (∀ v ∈ vs, ∀ c ∈ v.data, c ≠ '/') →
    cs.count '/' = slashCount ts := by
  intro ts
  induction ts with
  | nil =>
    intro vs cs hexp _
    cases vs with
    | nil =>
      have : cs = [] := by
        simpa [expandToks] using hexp.symm
      simp [this, slashCount]
    | cons v vs' => exact absurd hexp (by simp [expandToks])
  | cons t ts ih =>
    intro vs cs hexp hval
    cases t with
    | lit c =>
      simp only [expandToks, Option.map_eq_some'] at hexp
      obtain ⟨r, hr, hcons⟩ := hexp
      subst hcons
      rw [List.count_cons, ih vs r hr hval]
      show slashCount ts + _ = slashCount (Tok.lit c :: ts)
      by_cases hc : c = '/'
      · subst hc
        simp [slashCount]
        omega
      · have hb : (c == '/') = false := by simpa using hc
        simp [slashCount, hc, hb]
    | any => exact absurd hexp (by simp [expandToks])
    | param n =>
      cases vs with
      | nil => exact absurd hexp (by simp [expandToks])
      | cons v vs' =>
        simp only [expandToks, Option.map_eq_some'] at hexp
        obtain ⟨r, hr, hcons⟩ := hexp
        subst hcons
        rw [List.count_append]
        have hv0 : v.data.count '/' = 0 := by
          rw [List.count_eq_zero]
          intro hmem
          exact hval v (by simp) '/' hmem rfl
        rw [hv0, ih vs' r hr (fun w hw => hval w (by simp [hw]))]
        simp [slashCount]

/-! ### Records and maps -/

theorem recSet_key_pred {α : Type} (k k' : String) (v : α) :
    (fun (e : String × α) =>
        decide ((if e.1 = k then (k, v) else e).1 = k')) =
      (fun e => decide (e.1 = k')) ∨ k = k' := by
  by_cases hk : k = k'
  · exact Or.inr hk
  · left
    funext e
    by_cases he : e.1 = k
    · simp [he, hk]
    · simp [he]

theorem recGet_recSet_self {α : Type} (m : List (String × α)) (k : String) (v : α) :
    recGet (recSet m k v) k = some v := by
  unfold recSet
  by_cases hany : m.any (fun e => e.1 = k)
  · rw [if_pos hany]
    unfold recGet
    rw [List.find?_map]
    have hpred : ((fun (e : String × α) => decide (e.1 = k)) ∘
        (fun e => if e.1 = k then (k, v) else e)) = fun e => decide (e.1 = k) := by
      funext e
      by_cases he : e.1 = k <;> simp [he]
    rw [hpred]
    obtain ⟨e₀, he₀m, he₀⟩ := List.any_eq_true.mp hany
    have hsome : (m.find? (fun e => decide (e.1 = k))).isSome = true :=
      List.find?_isSome.mpr ⟨e₀, he₀m, by simpa using he₀⟩
    obtain ⟨e₁, he₁⟩ := Option.isSome_iff_exists.mp hsome
    have hk₁ : e₁.1 = k := by simpa using List.find?_some he₁
    rw [he₁]
    simp [hk₁]
  · rw [if_neg hany]
    unfold recGet
    rw [List.find?_append]
    have hnone : m.find? (fun e => decide (e.1 = k)) = none := by
      rw [List.find?_eq_none]
      intro e hem
      intro hpe
      exact hany (List.any_eq_true.mpr ⟨e, hem, hpe⟩)
    rw [hnone]
    simp [List.find?]

theorem recGet_recSet_ne {α : Type} (m : List (String × α)) (k k' : String) (v : α)
    (h : k' ≠ k) :
    recGet (recSet m k v) k' = recGet m k' := by
  have hks : ¬ k = k' := fun hh => h hh.symm
  unfold recSet
  by_cases hany : m.any (fun e => e.1 = k)
  · rw [if_pos hany]
    unfold recGet
    rw [List.find?_map]
    have hpred : ((fun (e : String × α) => decide (e.1 = k')) ∘
        (fun e => if e.1 = k then (k, v) else e)) = fun e => decide (e.1 = k') := by
      funext e
      by_cases he : e.1 = k
      · simp [he, hks]
      · simp [he]
    rw [hpred]
    cases hf : m.find? (fun e => decide (e.1 = k')) with
    | none => rfl
    | some e₁ =>
      have hk₁ : e₁.1 = k' := by simpa using List.find?_some hf
      have hne : e₁.1 ≠ k := by rw [hk₁]; exact h
      simp [hne]
  · rw [if_neg hany]
    unfold recGet
    rw [List.find?_append]
    have : List.find? (fun (e : String × α) => decide (e.1 = k')) [(k, v)] = none := by
      simp [List.find?, hks]
    rw [this, Option.or_none]

/-- The value a key holds after setting a whole list of pairs in order: the
last pair with that key wins; a key not in the list keeps its old value. -/
theorem recGet_mapSetAll (ps : List (String × String)) :
    ∀ (m : List (String × String)) (n : String),
      recGet (mapSetAll m ps) n =
        match ps.reverse.find? (fun q => q.1 = n) with
        | some q => some q.2
        | none => recGet m n := by
  induction ps with
  | nil => intro m n; rfl
  | cons q t ih =>
    intro m n
    have hstep : mapSetAll m (q :: t) = mapSetAll (recSet m q.1 q.2) t := rfl
    rw [hstep, ih, List.reverse_cons, List.find?_append]
    cases hf : t.reverse.find? (fun q => decide (q.1 = n)) with
    | some r => rfl
    | none =>
      by_cases hq : q.1 = n
      · have : List.find? (fun (e : String × String) => decide (e.1 = n)) [q] = some q := by
          simp [List.find?, hq]
        rw [this]
        show recGet (recSet m q.1 q.2) n = some q.2
        rw [hq]
        exact recGet_recSet_self m n q.2
      · have : List.find? (fun (e : String × String) => decide (e.1 = n)) [q] = none := by
          simp [List.find?, hq]
        rw [this]
        show recGet (recSet m q.1 q.2) n = recGet m n
        exact recGet_recSet_ne m q.1 n q.2 (fun hh => hq hh.symm)

/-! ### The method tables -/

theorem getTable_setTable_self {H : Type} (r : RoutesMapper H) (m : Method)
    (v : List (String × List H)) :
    getTable (setTable r m v) m = v := by
  cases m <;> rfl

theorem getTable_setTable_ne {H : Type} (r : RoutesMapper H) (m m' : Method)
    (v : List (String × List H)) (h : m ≠ m') :
    getTable (setTable r m' v) m = getTable r m := by
  cases m <;> cases m' <;> first | rfl | exact absurd rfl h

theorem getTable_initRoutes {H : Type} (m : Method) :
    getTable (initRoutes : RoutesMapper H) m = [] := by
  cases m <;> rfl

theorem getTable_registerMultipleHandlers_self {H : Type} (r : RoutesMapper H)
    (m : Method) (p : String) (hs : List H) :
    getTable (registerMultipleHandlers r m p hs) m
      = recSet (getTable r m) p (((recGet (getTable r m) p).getD []) ++ hs) := by
  unfold registerMultipleHandlers
  exact getTable_setTable_self _ _ _

theorem getTable_registerMultipleHandlers_ne {H : Type} (r : RoutesMapper H)
    (m m' : Method) (p : String) (hs : List H) (h : m ≠ m') :
    getTable (registerMultipleHandlers r m' p hs) m = getTable r m := by
  unfold registerMultipleHandlers
  exact getTable_setTable_ne _ _ _ _ h

/-! ### Route lookup is first-match in table order -/

/-- `lookupRoute` succeeds exactly on the first entry, in table (that is,
registration) order, whose compiled pattern matches the path; the result is
that entry's captures and chain, and every earlier entry fails to match. -/
theorem lookupRoute_some_iff {H : Type} (tbl : List (String × List H)) (u : String)
    (r : List (String × String) × List H) :
    lookupRoute tbl u = some r ↔
      ∃ pre p chain post, tbl = pre ++ (p, chain) :: post ∧
        (∀ q ∈ pre, matchToks (compile q.1) u.data = none) ∧
        matchToks (compile p) u.data = some r.1 ∧ r.2 = chain := by
  obtain ⟨rps, rchain⟩ := r
  induction tbl with
  | nil =>
    constructor
    · intro h; exact absurd h (by simp [lookupRoute])
    · rintro ⟨pre, p, chain, post, htbl, -, -, -⟩
      exact absurd htbl.symm (by simp)
  | cons e t ih =>
    obtain ⟨p₀, c₀⟩ := e
    simp only [lookupRoute]
    cases hm : matchToks (compile p₀) u.data with
    | some ps =>
      show some (ps, c₀) = some (rps, rchain) ↔ _
      rw [Option.some_inj, Prod.mk.injEq]
      constructor
      · rintro ⟨h1, h2⟩
        exact ⟨[], p₀, c₀, t, rfl, by simp, by rw [hm, h1], h2.symm⟩
      · rintro ⟨pre, p, chain, post, htbl, hpre, hmatch, hchain⟩
        cases pre with
        | nil =>
          simp only [List.nil_append, List.cons.injEq, Prod.mk.injEq] at htbl
          obtain ⟨⟨hp, hcz⟩, -⟩ := htbl
          subst hp
          rw [hm] at hmatch
          rw [Option.some_inj] at hmatch
          exact ⟨hmatch, by rw [hchain, hcz]⟩
        | cons q pre' =>
          exfalso
          simp only [List.cons_append, List.cons.injEq] at htbl
          obtain ⟨hq, -⟩ := htbl
          subst hq
          have hqn : matchToks (compile p₀) u.data = none := hpre (p₀, c₀) (by simp)
          rw [hm] at hqn
          cases hqn
    | none =>
      show lookupRoute t u = some (rps, rchain) ↔ _
      rw [ih]
      constructor
      · rintro ⟨pre, p, chain, post, htbl, hpre, hmatch, hchain⟩
        refine ⟨(p₀, c₀) :: pre, p, chain, post, by rw [htbl]; rfl, ?_, hmatch, hchain⟩
        intro q hq
        rcases List.mem_cons.mp hq with hq | hq
        · rw [hq]
          exact hm
        · exact hpre q hq
      · rintro ⟨pre, p, chain, post, htbl, hpre, hmatch, hchain⟩
        cases pre with
        | nil =>
          exfalso
          simp only [List.nil_append, List.cons.injEq, Prod.mk.injEq] at htbl
          obtain ⟨⟨hp, -⟩, -⟩ := htbl
          subst hp
          rw [hm] at hmatch
          cases hmatch
        | cons q pre' =>
          simp only [List.cons_append, List.cons.injEq] at htbl
          obtain ⟨-, htbl'⟩ := htbl
          exact ⟨pre', p, chain, post, htbl', fun w hw => hpre w (by simp [hw]),
            hmatch, hchain⟩

/-- If every entry of the table fails to match, lookup fails. -/
theorem lookupRoute_none {H : Type} (tbl : List (String × List H)) (u : String)
    (h : ∀ q ∈ tbl, matchToks (compile q.1) u.data = none) :
    lookupRoute tbl u = none := by
  induction tbl with
  | nil => rfl
  | cons e t ih =>
    obtain ⟨p₀, c₀⟩ := e
    simp only [lookupRoute]
    rw [h (p₀, c₀) (by simp)]
    exact ih (fun q hq => h q (by simp [hq]))

/-! ### Capture names are the declared names in order -/

theorem paramNames_any (ts : List Tok) :
    paramNames (Tok.any :: ts) = paramNames ts := rfl

/-- Whatever a compiled pattern matches, the capture names are the pattern's
declared parameter names, in order of appearance (`paramNames.push` order in
the source), paired positionally with the captured group values. -/
theorem matchToks_names (ts : List Tok) (hok : paramOk ts = true) :
    ∀ (cs : List Char) (ps : List (String × String)),
      matchToks ts cs = some ps → ps.map Prod.fst = paramNames ts := by
  induction ts with
  | nil =>
    intro cs ps h
    cases cs with
    | nil =>
      rw [matchToks_nil_nil] at h
      cases h
      rfl
    | cons x xs =>
      rw [matchToks_nil_cons] at h
      cases h
  | cons t ts ih =>
    cases t with
    | lit c =>
      have hok' : paramOk ts = true := by rw [paramOk_lit] at hok; exact hok
      intro cs ps h
      cases cs with
      | nil => rw [matchToks_lit_nil] at h; cases h
      | cons x xs =>
        rw [matchToks_lit_cons] at h
        by_cases hx : x = c
        · rw [if_pos hx] at h
          rw [paramNames_lit]
          exact ih hok' xs ps h
        · rw [if_neg hx] at h
          cases h
    | any =>
      have hok' : paramOk ts = true := by rw [paramOk_any] at hok; exact hok
      intro cs ps h
      cases cs with
      | nil => rw [matchToks_any_nil] at h; cases h
      | cons x xs =>
        rw [matchToks_any_cons] at h
        by_cases hx : dotMatch x
        · rw [if_pos hx] at h
          rw [paramNames_any]
          exact ih hok' xs ps h
        · rw [if_neg hx] at h
          cases h
    | param n =>
      obtain ⟨hsh, hok'⟩ := paramOk_param_inv n ts hok
      intro cs ps h
      rw [matchToks_param_next n ts cs hsh] at h
      by_cases hm : (cs.takeWhile (fun c => c != '/')).length = 0
      · rw [if_pos hm] at h
        cases h
      · rw [if_neg hm] at h
        rw [Option.map_eq_some'] at h
        obtain ⟨ps', hps', hcons⟩ := h
        subst hcons
        rw [paramNames_param, List.map_cons]
        rw [ih hok' _ ps' hps']

/-! ### Registration histories -/

theorem foldl_applyEvent_middlewares {H : Type} :
    ∀ (evs : List (RegEvent H)) (st : AppState H),
      (evs.foldl applyEvent st).middlewares = st.middlewares ++ usesOf evs := by
  intro evs
  induction evs with
  | nil => intro st; simp [usesOf]
  | cons e t ih =>
    intro st
    rw [List.foldl_cons, ih]
    cases e with
    | use ms => simp [applyEvent, appUse, usesOf]
    | reg m p hs => simp [applyEvent, appReg, usesOf]

theorem foldl_applyEvent_absent {H : Type} (m : Method) (rt : String) :
    ∀ (evs : List (RegEvent H)) (st : AppState H),
      (∀ e ∈ evs, regsRoute m rt e = false) →
      recGet (getTable (evs.foldl applyEvent st).routes m) rt
        = recGet (getTable st.routes m) rt := by
  intro evs
  induction evs with
  | nil => intro st _; rfl
  | cons e t ih =>
    intro st hne
    rw [List.foldl_cons, ih _ (fun x hx => hne x (by simp [hx]))]
    cases e with
    | use ms => rfl
    | reg m' p hs =>
      have hfalse := hne (.reg m' p hs) (by simp)
      show recGet (getTable (appReg st m' p hs).routes m) rt = _
      simp only [appReg]
      by_cases hm : m' = m
      · subst hm
        have hp : p ≠ rt := by
          intro hh
          subst hh
          simp [regsRoute] at hfalse
        rw [getTable_registerMultipleHandlers_self]
        exact recGet_recSet_ne _ _ _ _ (fun hh => hp hh.symm)
      · rw [getTable_registerMultipleHandlers_ne _ _ _ _ _ (fun hh => hm hh.symm)]

/-! ### Small response-state lemmas -/

theorem resEnd_headers (r : Res) (b : String) : (resEnd r b).headers = r.headers := by
  unfold resEnd
  split <;> rfl

theorem resEnd_not_ended (r : Res) (b : String) (h : r.ended = false) :
    resEnd r b = { r with body := b, ended := true } := by
  simp [resEnd, h]

theorem setHeader_ended (r : Res) (k v : String) : (setHeader r k v).ended = r.ended := rfl

/-- Unfolding `findPathHandlers` once the method string resolves. -/
theorem findPathHandlers_eq {H : Type} (routes : RoutesMapper H) (req : Req)
    (url : String) (m : Method) (hm : methodOfString req.method = some m) :
    findPathHandlers routes req url =
      match lookupRoute (getTable routes m) url with
      | none => ([], req)
      | some (ps, chain) => (chain, addRouteParams req ps) := by
  unfold findPathHandlers
  rw [hm]

/-- Dispatch with an empty handler list answers 404 `"Not Found"`
(the `handlers.length === 0` test in `handle`). -/
theorem handle_404 (routes : RoutesMapper Handler) (req : Req) (res : Res)
    (h : (findPathHandlers routes req (urlOr req.url)).1 = []) :
    handle routes req res = .ok (resEnd { res with statusCode := 404 } "Not Found") := by
  unfold handle
  rw [h]
  rfl

/-! # Claims -/

/-- C1.  The claim says a handler that throws synchronously yields a 500
response with body "Internal Server Error", stops later handlers, and does
not propagate.  The dispatcher `handle` (src/test.md line 72) runs the chain
with a bare `forEach` and no try/catch — the FIXME comment at lines 68-71
says so — so while later handlers indeed do not run, the exception escapes
`handle` (the `Except.error` result) carrying the response exactly as it
was: no 500 status and no body are ever written, for every starting
response state.  (The error-handling `executeHandlers` sketch at
src/test.md lines 19-36 that would behave as claimed is not called by
`handle`.) -/
theorem throwing_handler_escapes_dispatch (res : Res) :
    handle throwRoutes (freshReq (some "GET") (some "/x") []) res
      = Except.error res := rfl

/-- C2.  For any route table and request whose method resolves and whose
path matches some pattern, dispatch returns the chain of the first matching
pattern in table (registration) order, and the extracted parameters are the
declared names in pattern order, bound positionally: for dot-free patterns
the whole path reassembles from the capture values at the parameter
positions. -/
theorem dispatch_first_match_and_params {H : Type} (routes : RoutesMapper H)
    (m : Method) (req : Req)
    (pre post : List (String × List H)) (p : String) (chain : List H)
    (ps : List (String × String))
    (hm : methodOfString req.method = some m)
    (htbl : getTable routes m = pre ++ (p, chain) :: post)
    (hpre : ∀ q ∈ pre, matchToks (compile q.1) (urlOr req.url).data = none)
    (hmatch : matchToks (compile p) (urlOr req.url).data = some ps) :
    findPathHandlers routes req (urlOr req.url) = (chain, addRouteParams req ps) ∧
    ps.map Prod.fst = paramNames (compile p) ∧
    ((∀ c ∈ p.data, c ≠ '.') →
      expandToks (compile p) (ps.map Prod.snd) = some (urlOr req.url).data) := by
  have hlk : lookupRoute (getTable routes m) (urlOr req.url) = some (ps, chain) :=
    (lookupRoute_some_iff _ _ _).mpr ⟨pre, p, chain, post, htbl, hpre, hmatch, rfl⟩
  refine ⟨?_, ?_, ?_⟩
  · simp only [findPathHandlers, hm, hlk]
  · exact matchToks_names (compile p) (compile_paramOk p) _ ps hmatch
  · intro hdot
    exact ((matchToks_characterization (compile p) (compile_paramOk p)
      (compile_anyFree p hdot) _ ps).mp hmatch).2.1

/-- Witness for C2: the spec's worked example, `GET
/posts/:id/comments/:commentId/replies` against
`/posts/42/comments/7/replies` gives `id = "42"`, `commentId = "7"`. -/
theorem dispatch_first_match_and_params_witness :
    findPathHandlers
        (appReg (initApp Nat) Method.GET "/posts/:id/comments/:commentId/replies" [1]).routes
        (freshReq (some "GET") (some "/posts/42/comments/7/replies") [])
        (urlOr (some "/posts/42/comments/7/replies"))
      = ([1], addRouteParams
          (freshReq (some "GET") (some "/posts/42/comments/7/replies") [])
          [("id", "42"), ("commentId", "7")]) ∧
    [("id", "42"), ("commentId", "7")].map Prod.fst
      = paramNames (compile "/posts/:id/comments/:commentId/replies") := by
  have h := dispatch_first_match_and_params
    (appReg (initApp Nat) Method.GET "/posts/:id/comments/:commentId/replies" [1]).routes
    Method.GET
    (freshReq (some "GET") (some "/posts/42/comments/7/replies") [])
    [] [] "/posts/:id/comments/:commentId/replies" [1]
    [("id", "42"), ("commentId", "7")]
    (by decide) (by decide) (by simp) (by decide)
  exact ⟨h.1, h.2.1⟩

/-- C3.  The chain stored for a route registered at some point in a history
is exactly the global middleware registered by `use` before that
registration, in order, followed by the route's own handlers; `use` calls
after the registration do not appear (the conclusion does not depend on
`post` at all beyond it not re-registering the same route). -/
theorem middleware_snapshot_chain (pre post : List (RegEvent Nat)) (m : Method)
    (rt : String) (hs : List Nat)
    (hpre : ∀ e ∈ pre, regsRoute m rt e = false)
    (hpost : ∀ e ∈ post, regsRoute m rt e = false) :
    recGet (getTable (applyHistory (pre ++ RegEvent.reg m rt hs :: post)).routes m) rt
      = some (usesOf pre ++ hs) := by
  unfold applyHistory
  rw [List.foldl_append, List.foldl_cons]
  rw [foldl_applyEvent_absent m rt post _ hpost]
  show recGet (getTable
    (appReg (pre.foldl applyEvent (initApp Nat)) m rt hs).routes m) rt = _
  simp only [appReg]
  rw [getTable_registerMultipleHandlers_self]
  have habsent :
      recGet (getTable (pre.foldl applyEvent (initApp Nat)).routes m) rt = none := by
    rw [foldl_applyEvent_absent m rt pre _ hpre]
    show recGet (getTable (initRoutes : RoutesMapper Nat) m) rt = none
    rw [getTable_initRoutes]
    rfl
  rw [recGet_recSet_self, habsent]
  have hmw : (pre.foldl applyEvent (initApp Nat)).middlewares = usesOf pre := by
    rw [foldl_applyEvent_middlewares]
    show ([] : List Nat) ++ usesOf pre = usesOf pre
    simp
  rw [hmw]
  simp

/-- Witness for C3: the spec's example `use(M1); get("/a", H1); use(M2);
get("/b", H2)` gives chain `[M1, H1]` for `/a` and `[M1, M2, H2]` for `/b`
(with labels M1 = 1, M2 = 2, H1 = 10, H2 = 20). -/
theorem middleware_snapshot_chain_witness :
    recGet (getTable (applyHistory
        ([RegEvent.use [1]] ++ RegEvent.reg Method.GET "/a" [10] ::
          [RegEvent.use [2], RegEvent.reg Method.GET "/b" [20]])).routes Method.GET) "/a"
      = some [1, 10] ∧
    recGet (getTable (applyHistory
        ([RegEvent.use [1], RegEvent.reg Method.GET "/a" [10], RegEvent.use [2]]
          ++ RegEvent.reg Method.GET "/b" [20] :: [])).routes Method.GET) "/b"
      = some [1, 2, 20] := by
  constructor
  · have h := middleware_snapshot_chain [RegEvent.use [1]]
      [RegEvent.use [2], RegEvent.reg Method.GET "/b" [20]] Method.GET "/a" [10]
      (by decide) (by decide)
    exact h.trans (by decide)
  · have h := middleware_snapshot_chain
      [RegEvent.use [1], RegEvent.reg Method.GET "/a" [10], RegEvent.use [2]]
      [] Method.GET "/b" [20] (by decide) (by decide)
    exact h.trans (by decide)

/-- C4.  A request whose method is not one of the seven method keys, or for
which no registered pattern of its method matches the path, is answered 404
with exactly the body "Not Found"; no handler output can appear since the
result is the fixed 404 response whatever handlers the table holds. -/
theorem unmatched_request_404 (routes : RoutesMapper Handler) (req : Req) (res : Res)
    (hres : res.ended = false)
    (h : ∀ m, methodOfString req.method = some m →
      ∀ q ∈ getTable routes m, matchToks (compile q.1) (urlOr req.url).data = none) :
    handle routes req res
      = Except.ok { res with statusCode := 404, body := "Not Found", ended := true } := by
  have hfind : (findPathHandlers routes req (urlOr req.url)).1 = [] := by
    cases hmo : methodOfString req.method with
    | none => simp only [findPathHandlers, hmo]
    | some m =>
      simp only [findPathHandlers, hmo, lookupRoute_none _ _ (h m hmo)]
  rw [handle_404 routes req res hfind]
  rw [resEnd_not_ended _ _ (by simpa using hres)]

/-- Witness for C4: an unregistered path on a fresh app, and an unknown
method string on the same app. -/
theorem unmatched_request_404_witness :
    handle (initApp Handler).routes (freshReq (some "GET") (some "/nope") []) initRes
      = Except.ok { initRes with statusCode := 404, body := "Not Found", ended := true } ∧
    handle (initApp Handler).routes (freshReq (some "BREW") (some "/") []) initRes
      = Except.ok { initRes with statusCode := 404, body := "Not Found", ended := true } := by
  constructor
  · apply unmatched_request_404
    · rfl
    · intro m hm q hq
      have hq' : q ∈ getTable (initRoutes : RoutesMapper Handler) m := hq
      rw [getTable_initRoutes] at hq'
      cases hq'
  · apply unmatched_request_404
    · rfl
    · intro m hm q hq
      have hq' : q ∈ getTable (initRoutes : RoutesMapper Handler) m := hq
      rw [getTable_initRoutes] at hq'
      cases hq'

/-- C5 (amended).  For patterns built only of characters with no regex
meaning (`plainPattern`) and containing no `.`, matching is the anchored
full-string rule the claim states: success with captures `ps` holds exactly
when the path is the pattern reassembled with the capture values spliced in
at the parameter positions (literals verbatim, in place), every capture is
one or more non-`/` characters taken greedily, and the capture names are
the declared names; moreover appending a trailing slash to a matching path
never matches (trailing slashes are significant).  The amendment: as
written, the claim's "a literal segment matches only the identical segment
text" fails for literals that are regex metacharacters — see the
counterexample, where the literal `.` of pattern `/a.b` matches the `x` of
path `/axb`. -/
theorem match_rule_anchored (p : String) (u : List Char) (ps : List (String × String))
    (hplain : plainPattern p = true)
    (hdot : ∀ c ∈ p.data, c ≠ '.') :
    (matchToks (compile p) u = some ps ↔
      (ps.map Prod.fst = paramNames (compile p) ∧
       expandToks (compile p) (ps.map Prod.snd) = some u ∧
       ∀ pr ∈ ps, pr.2.data ≠ [] ∧ ∀ c ∈ pr.2.data, c ≠ '/')) ∧
    (matchToks (compile p) u = some ps → matchToks (compile p) (u ++ ['/']) = none) := by
  have hok := compile_paramOk p
  have hany := compile_anyFree p hdot
  have hchar := matchToks_characterization (compile p) hok hany
  refine ⟨hchar u ps, ?_⟩
  intro hmatch
  by_contra hsome
  obtain ⟨ps', hps'⟩ := Option.ne_none_iff_exists'.mp hsome
  obtain ⟨-, hexp, hval⟩ := (hchar u ps).mp hmatch
  obtain ⟨-, hexp', hval'⟩ := (hchar (u ++ ['/']) ps').mp hps'
  have hvs : ∀ v ∈ ps.map Prod.snd, ∀ c ∈ v.data, c ≠ '/' := by
    intro v hv c hc
    obtain ⟨pr, hpr, hpr2⟩ := List.mem_map.mp hv
    exact (hval pr hpr).2 c (by rw [hpr2]; exact hc)
  have hvs' : ∀ v ∈ ps'.map Prod.snd, ∀ c ∈ v.data, c ≠ '/' := by
    intro v hv c hc
    obtain ⟨pr, hpr, hpr2⟩ := List.mem_map.mp hv
    exact (hval' pr hpr).2 c (by rw [hpr2]; exact hc)
  have h1 : u.count '/' = slashCount (compile p) :=
    expand_count_slash _ _ _ hexp hvs
  have h2 : (u ++ ['/']).count '/' = slashCount (compile p) :=
    expand_count_slash _ _ _ hexp' hvs'
  rw [List.count_append] at h2
  simp [List.count_cons] at h2
  omega

/-- Witness for C5: `/a/:x` matches `/a/7` with `x = "7"`, and the same
path with a trailing slash added does not match. -/
theorem match_rule_anchored_witness :
    matchToks (compile "/a/:x") "/a/7".data = some [("x", "7")] ∧
    matchToks (compile "/a/:x") ("/a/7".data ++ ['/']) = none := by
  have h := match_rule_anchored "/a/:x" "/a/7".data [("x", "7")]
    (by decide) (by decide)
  have hm : matchToks (compile "/a/:x") "/a/7".data = some [("x", "7")] := by decide
  exact ⟨hm, h.2 hm⟩

/-- Counterexample for C5 as stated: the pattern string reaches the regex
engine, so the literal `.` in pattern `/a.b` matches any character — the
path `/axb`, which is not the pattern's literal text, is selected by
dispatch (and yields no parameters). -/
theorem dot_literal_matches_nonidentical :
    lookupRoute [("/a.b", [1])] "/axb" = some ([], [1]) ∧ "/axb" ≠ "/a.b" := by
  constructor
  · decide
  · decide

/-- C6.  Registering twice under the identical `(method, pattern)` pair (on
an app with no global middleware) accumulates into a single entry whose
chain is the concatenation — length `n1 + n2` — and chain execution runs
all of the first registration's handlers before all of the second's, in
order, as the sequencing equation states. -/
theorem same_pattern_registration_accumulates (m : Method) (p : String)
    (hs1 hs2 : List Handler) :
    getTable ((appReg (appReg (initApp Handler) m p hs1) m p hs2).routes) m
      = [(p, hs1 ++ hs2)] ∧
    (hs1 ++ hs2).length = hs1.length + hs2.length ∧
    (∀ (req : Req) (res : Res),
      runChain (hs1 ++ hs2) req res =
        match runChain hs1 req res with
        | .ok r => runChain hs2 req r
        | .error e => .error e) := by
  refine ⟨?_, List.length_append hs1 hs2, ?_⟩
  · have e1 : appReg (initApp Handler) m p hs1
        = ⟨[], registerMultipleHandlers initRoutes m p hs1⟩ := by
      simp [appReg, initApp]
    have e2 : appReg (⟨[], registerMultipleHandlers initRoutes m p hs1⟩ : AppState Handler)
        m p hs2
        = ⟨[], registerMultipleHandlers
            (registerMultipleHandlers initRoutes m p hs1) m p hs2⟩ := by
      simp [appReg]
    rw [e1, e2]
    have t1 : getTable (registerMultipleHandlers (initRoutes : RoutesMapper Handler)
        m p hs1) m = [(p, hs1)] := by
      rw [getTable_registerMultipleHandlers_self, getTable_initRoutes]
      simp [recGet, recSet]
    show getTable (registerMultipleHandlers
      (registerMultipleHandlers initRoutes m p hs1) m p hs2) m = _
    rw [getTable_registerMultipleHandlers_self, t1]
    simp [recGet, recSet, List.find?]
  · intro req res
    induction hs1 generalizing res with
    | nil => simp [runChain]
    | cons hd t ih =>
      cases hh : hd req res with
      | ok r =>
        have l1 : runChain ((hd :: t) ++ hs2) req res = runChain (t ++ hs2) req r := by
          simp [runChain, hh]
        have l2 : runChain (hd :: t) req res = runChain t req r := by
          simp [runChain, hh]
        rw [l1, l2, ih r]
      | error e =>
        have l1 : runChain ((hd :: t) ++ hs2) req res = .error e := by
          simp [runChain, hh]
        have l2 : runChain (hd :: t) req res = .error e := by
          simp [runChain, hh]
        rw [l1, l2]

/-- C7.  The JSON helper always sets the `Content-Type: application/json`
header; when serialization succeeds it ends the body with the serialized
text (empty when `JSON.stringify` returns `undefined`); when serialization
throws it ends with status 500 and body "Internal Server Error" — and
`resJson` is a total function, so the serialization exception never reaches
the caller. -/
theorem json_helper_content_type_and_errors (res : Res) (v : JVal)
    (hres : res.ended = false) :
    recGet (resJson res v).headers "Content-Type" = some "application/json" ∧
    (∀ s : Option String, stringify v = Except.ok s →
      (resJson res v).body = s.getD "" ∧ (resJson res v).ended = true) ∧
    (stringify v = Except.error () →
      (resJson res v).statusCode = 500 ∧
      (resJson res v).body = "Internal Server Error" ∧
      (resJson res v).ended = true) := by
  unfold resJson
  cases hs : stringify v with
  | ok s =>
    have hend : (setHeader res "Content-Type" "application/json").ended = false := hres
    refine ⟨?_, ?_, ?_⟩
    · show recGet (resEnd (setHeader res "Content-Type" "application/json")
          (s.getD "")).headers "Content-Type" = some "application/json"
      rw [resEnd_headers]
      exact recGet_recSet_self _ _ _
    · intro s' hs'
      injection hs' with h1
      subst h1
      show (resEnd (setHeader res "Content-Type" "application/json") (s.getD "")).body
          = s.getD "" ∧
        (resEnd (setHeader res "Content-Type" "application/json") (s.getD "")).ended
          = true
      rw [resEnd_not_ended _ _ hend]
      exact ⟨rfl, rfl⟩
    · intro hs'
      exact Except.noConfusion hs'
  | error e =>
    have hend : ({ setHeader res "Content-Type" "application/json" with
        statusCode := 500 } : Res).ended = false := hres
    refine ⟨?_, ?_, ?_⟩
    · show recGet (resEnd { setHeader res "Content-Type" "application/json" with
          statusCode := 500 } "Internal Server Error").headers "Content-Type"
          = some "application/json"
      rw [resEnd_headers]
      exact recGet_recSet_self _ _ _
    · intro s' hs'
      exact Except.noConfusion hs'
    · intro _
      show (resEnd { setHeader res "Content-Type" "application/json" with
            statusCode := 500 } "Internal Server Error").statusCode = 500 ∧
        (resEnd { setHeader res "Content-Type" "application/json" with
            statusCode := 500 } "Internal Server Error").body
          = "Internal Server Error" ∧
        (resEnd { setHeader res "Content-Type" "application/json" with
            statusCode := 500 } "Internal Server Error").ended = true
      rw [resEnd_not_ended _ _ hend]
      exact ⟨rfl, rfl, rfl⟩

/-- Witness for C7: a BigInt is unserializable — `JSON.stringify` throws —
and the helper answers 500 "Internal Server Error" with the JSON content
type header set, without the exception escaping (`resJson` evaluates). -/
theorem json_helper_content_type_and_errors_witness :
    (resJson initRes (JVal.jbigint 1)).statusCode = 500 ∧
    (resJson initRes (JVal.jbigint 1)).body = "Internal Server Error" ∧
    recGet (resJson initRes (JVal.jbigint 1)).headers "Content-Type"
      = some "application/json" := by
  have h := json_helper_content_type_and_errors initRes (JVal.jbigint 1) rfl
  have hb : stringify (JVal.jbigint 1) = Except.error () := by
    simp [stringify]
  obtain ⟨h1, -, h3⟩ := h
  obtain ⟨h31, h32, -⟩ := h3 hb
  exact ⟨h31, h32, h1⟩

/-- C8.  Dispatch is deterministic: it is a pure function of the route
table and the request content, so two requests with equal method, url,
headers and (fresh) params map produce the same selected chain, the same
extracted parameters, and — handlers in the model being pure functions —
structurally identical responses; and route selection is exactly
first-structural-match in registration order (so re-running an identical
request against the unchanged table reselects the same entry). -/
theorem dispatch_deterministic (routes : RoutesMapper Handler) (req1 req2 : Req)
    (res : Res)
    (hm : req1.method = req2.method) (hu : req1.url = req2.url)
    (hh : req1.headers = req2.headers) (hp : req1.params = req2.params) :
    handle routes req1 res = handle routes req2 res ∧
    findPathHandlers routes req1 (urlOr req1.url)
      = findPathHandlers routes req2 (urlOr req2.url) ∧
    (∀ (tbl : List (String × List Handler)) (u : String)
        (r : List (String × String) × List Handler),
      lookupRoute tbl u = some r ↔
        ∃ pre p chain post, tbl = pre ++ (p, chain) :: post ∧
          (∀ q ∈ pre, matchToks (compile q.1) u.data = none) ∧
          matchToks (compile p) u.data = some r.1 ∧ r.2 = chain) := by
  have hreq : req1 = req2 := by
    cases req1
    cases req2
    simp_all
  subst hreq
  exact ⟨rfl, rfl, fun tbl u r => lookupRoute_some_iff tbl u r⟩

/-- Witness for C8: two runs of the same request against a table holding
one probe route give the same result. -/
theorem dispatch_deterministic_witness :
    handle throwRoutes (freshReq (some "GET") (some "/") []) initRes
      = handle throwRoutes (freshReq (some "GET") (some "/") []) initRes := by
  exact (dispatch_deterministic throwRoutes
    (freshReq (some "GET") (some "/") []) (freshReq (some "GET") (some "/") [])
    initRes rfl rfl rfl rfl).1

/-- C9.  A route registered with zero handlers while no global middleware
exists is stored (the table really has an entry with the empty chain), yet
a request to it is answered 404 "Not Found" exactly as on a fresh app,
because `handle` tests the returned chain's length, not the existence of a
table entry — and dispatch on the fresh app answers the fixed 404. -/
theorem empty_chain_treated_as_not_found (p : String) (u : Option String)
    (hdrs : List (String × String)) :
    (∀ res : Res,
      handle (appReg (initApp Handler) Method.GET p []).routes
          (freshReq (some "GET") u hdrs) res
        = handle (initApp Handler).routes (freshReq (some "GET") u hdrs) res) ∧
    recGet (getTable (appReg (initApp Handler) Method.GET p []).routes Method.GET) p
      = some [] ∧
    handle (initApp Handler).routes (freshReq (some "GET") u hdrs) initRes
      = Except.ok { initRes with statusCode := 404, body := "Not Found", ended := true } := by
  have htbl : getTable ((appReg (initApp Handler) Method.GET p []).routes) Method.GET
      = [(p, [])] := by
    show getTable (registerMultipleHandlers (initRoutes : RoutesMapper Handler)
      Method.GET p ([] ++ [])) Method.GET = _
    rw [getTable_registerMultipleHandlers_self, getTable_initRoutes]
    simp [recGet, recSet]
  have hempty : (findPathHandlers (initApp Handler).routes
      (freshReq (some "GET") u hdrs) (urlOr u)).1 = [] := by
    rw [findPathHandlers_eq (initApp Handler).routes (freshReq (some "GET") u hdrs)
      (urlOr u) Method.GET rfl]
    have h0 : getTable (initApp Handler).routes Method.GET = [] := rfl
    rw [h0]
    rfl
  have hreg : (findPathHandlers (appReg (initApp Handler) Method.GET p []).routes
      (freshReq (some "GET") u hdrs) (urlOr u)).1 = [] := by
    rw [findPathHandlers_eq (appReg (initApp Handler) Method.GET p []).routes
      (freshReq (some "GET") u hdrs) (urlOr u) Method.GET rfl, htbl]
    simp only [lookupRoute]
    cases matchToks (compile p) (urlOr u).data <;> rfl
  refine ⟨?_, ?_, ?_⟩
  · intro res
    rw [handle_404 _ _ _ hreg, handle_404 _ _ _ hempty]
  · rw [htbl]
    simp [recGet]
  · rw [handle_404 _ _ _ hempty]
    rw [resEnd_not_ended _ _ rfl]

/-- C10.  When the same parameter name occurs several times in a pattern,
the captures still pair the declared names positionally with the matched
values, and the params `Map` built by repeated `set` makes lookup of the
name return the value of its last occurrence (the last pair in capture
order with that name). -/
theorem duplicate_param_name_last_occurrence (p : String) (u : String)
    (ps : List (String × String)) (n : String)
    (hmatch : matchToks (compile p) u.data = some ps) :
    ps.map Prod.fst = paramNames (compile p) ∧
    recGet (mapSetAll [] ps) n
      = (ps.reverse.find? (fun q => q.1 = n)).map Prod.snd := by
  refine ⟨matchToks_names (compile p) (compile_paramOk p) u.data ps hmatch, ?_⟩
  rw [recGet_mapSetAll]
  cases hf : ps.reverse.find? (fun q => q.1 = n) with
  | some q => rfl
  | none => rfl

/-- Witness for C10: `/a/:x/:x` against `/a/1/2` captures `x` twice, and
the params map holds `x = "2"`, the value of the last occurrence. -/
theorem duplicate_param_name_last_occurrence_witness :
    matchToks (compile "/a/:x/:x") "/a/1/2".data = some [("x", "1"), ("x", "2")] ∧
    recGet (mapSetAll [] [("x", "1"), ("x", "2")]) "x" = some "2" := by
  have hm : matchToks (compile "/a/:x/:x") "/a/1/2".data
      = some [("x", "1"), ("x", "2")] := by decide
  have h := duplicate_param_name_last_occurrence "/a/:x/:x" "/a/1/2" _ "x" hm
  refine ⟨hm, h.2.trans ?_⟩
  decide

end NodeFrame